import Mathlib

/-!
# Verification of the EuropePMC MCP server core

Shallow embedding of `src/europepmc_server/server.py`: the author
disambiguation engine (`AuthorDisambiguator`), the retry loop of
`EuropePMCClient._make_request`, and the entry check of
`EuropePMCServer._search_author_publications`, together with proofs of
the specified properties.

Python strings are modelled as `String` / `List Char`, processed by the
same operations the Python code uses (`str.strip`, `str.lower`,
`str.split`, `" ".join`, `str.isalpha`, `str.upper`).  Python string
lowercasing acts on the ASCII letters exactly as `Char.toLower` does;
the inputs the claims quantify over are arbitrary, and nothing in the
repository depends on lowercasing outside ASCII.
-/

namespace EuropePMC

/-- Python `str.strip()`: drop leading and trailing whitespace. -/
def pyStrip (l : List Char) : List Char :=
  ((l.dropWhile Char.isWhitespace).reverse.dropWhile Char.isWhitespace).reverse

/-- Helper for `splitWs`; `acc` holds the characters of the token
currently being read, in reverse order. -/
def splitWsAux : List Char → List Char → List (List Char)
  | [], acc => if acc.isEmpty then [] else [acc.reverse]
  | c :: cs, acc =>
      if c.isWhitespace then
        if acc.isEmpty then splitWsAux cs [] else acc.reverse :: splitWsAux cs []
      else splitWsAux cs (c :: acc)

/-- Python `str.split()` with no separator: split on runs of whitespace,
discarding empty pieces. -/
def splitWs (l : List Char) : List (List Char) := splitWsAux l []

/-- Python `" ".join(tokens)`. -/
def joinSp : List (List Char) → List Char
  | [] => []
  | [t] => t
  | t :: ts => t ++ ' ' :: joinSp ts

/-- The suffix/title tokens dropped by `normalize_author_name`
(`server.py` line 285). -/
def suffixes : List (List Char) :=
  [String.toList "jr", String.toList "sr", String.toList "ii",
   String.toList "iii", String.toList "iv", String.toList "phd",
   String.toList "md", String.toList "dr"]

/-- `AuthorDisambiguator.normalize_author_name` (`server.py` lines
279-288) on character lists:
`normalized = " ".join(name.strip().lower().split())`, then the words of
`normalized` that are not suffix tokens are joined with single spaces. -/
def normalizeAuthorNameL (name : List Char) : List Char :=
  let normalized := joinSp (splitWs ((pyStrip name).map Char.toLower))
  let words := splitWs normalized
  let filtered_words := words.filter (fun w => !(suffixes.contains w))
  joinSp filtered_words

/-- `AuthorDisambiguator.normalize_author_name` on `String`. -/
def normalize_author_name (name : String) : String :=
  ⟨normalizeAuthorNameL name.data⟩

/-- `AuthorDisambiguator.extract_initials` (`server.py` lines 290-298):
for each whitespace-separated word, if the word is nonempty and its
first character is alphabetic, contribute that character uppercased. -/
def extract_initials (name : String) : String :=
  ⟨(splitWs (pyStrip name.data)).filterMap (fun w =>
      match w with
      | c :: _ => if c.isAlpha then some c.toUpper else none
      | [] => none)⟩

/-- The initials function as claim C8 words it: for every
whitespace-separated token, the first alphabetic character found
anywhere in the token, uppercased, concatenated in token order. -/
def claimed_extract_initials (name : String) : String :=
  ⟨(splitWs (pyStrip name.data)).filterMap (fun w =>
      match w.find? (fun c => c.isAlpha) with
      | some c => some c.toUpper
      | none => none)⟩

/-- The initials function as the source behaves, reformulated at the
spec level: keep only the tokens whose first character is alphabetic,
and concatenate the uppercased first characters of the kept tokens. -/
def skip_token_initials (name : String) : String :=
  ⟨((splitWs (pyStrip name.data)).filter (fun w =>
      match w with
      | c :: _ => c.isAlpha
      | [] => false)).map (fun w => (w.headD ' ').toUpper)⟩

/-- The four string-similarity metrics used by `match_authors`
(`fuzz.ratio`, `fuzz.partial_ratio`, `fuzz.token_sort_ratio`,
`fuzz.token_set_ratio` of the external fuzzywuzzy library, `server.py`
lines 321-324).  The library is an external dependency, not code of
this repository, and every claim about the matching pipeline holds for
arbitrary metric values, so the metrics are kept abstract: each is an
arbitrary function returning a natural-number score. -/
structure Scorer where
  full_name_score : String → String → Nat
  partial_score : String → String → Nat
  token_sort_score : String → String → Nat
  token_set_score : String → String → Nat

/-- A concrete instantiation of the four metrics used by witnesses and
counterexamples: every metric scores 100 on identical strings and 0
otherwise.  (All four fuzzywuzzy metrics return 100 on identical
inputs, which is the only behaviour the concrete theorems below rely
on.) -/
def eqScorer : Scorer :=
  ⟨fun a b => if a = b then 100 else 0,
   fun a b => if a = b then 100 else 0,
   fun a b => if a = b then 100 else 0,
   fun a b => if a = b then 100 else 0⟩

/-- The per-candidate score of `match_authors` (`server.py` lines
317-335): the maximum of the four similarity metrics between the
normalized target and the normalized candidate, plus a 10-point bonus
when the extracted initials of the raw target and raw candidate are
equal.  `nt` and `ti` are the normalized target and target initials,
computed once per call as in the source. -/
def finalScore (sc : Scorer) (nt ti : String) (candidate : String) : Nat :=
  let normalized_candidate := normalize_author_name candidate
  let candidate_initials := extract_initials candidate
  let initials_bonus : Nat := if ti = candidate_initials then 10 else 0
  max (max (sc.full_name_score nt normalized_candidate)
           (sc.partial_score nt normalized_candidate))
      (max (sc.token_sort_score nt normalized_candidate)
           (sc.token_set_score nt normalized_candidate)) + initials_bonus

/-- Stable insertion step for a descending sort: `x` is placed before
the first element whose key is less than or equal to its own.  Earlier
elements keep their position. -/
def insertDescBy {α : Type} (key : α → Nat) (x : α) : List α → List α
  | [] => [x]
  | y :: ys => if key y ≤ key x then x :: y :: ys else y :: insertDescBy key x ys

/-- Python's stable `list.sort(key=..., reverse=True)`: sort by key
descending, elements with equal keys keeping their input order. -/
def sortDescBy {α : Type} (key : α → Nat) : List α → List α
  | [] => []
  | x :: xs => insertDescBy key x (sortDescBy key xs)

/-- `AuthorDisambiguator.match_authors` (`server.py` lines 300-342):
normalize the target once, score every candidate, keep the candidates
whose final score reaches the threshold together with their score
clipped to 100, and sort the kept pairs by score descending (stable).
The threshold is an `Int`, as the Python parameter is an `int`. -/
def match_authors (sc : Scorer) (target_author : String)
    (candidate_authors : List String) (threshold : Int) : List (String × Nat) :=
  let normalized_target := normalize_author_name target_author
  let target_initials := extract_initials target_author
  let matchesList := candidate_authors.filterMap (fun candidate =>
    let final_score := finalScore sc normalized_target target_initials candidate
    if threshold ≤ (final_score : Int) then some (candidate, min final_score 100)
    else none)
  sortDescBy (fun m => m.2) matchesList

/-- Qualification exactly as the source compares (`server.py` line 337):
the unclipped final score is compared with the threshold. -/
def code_qualifies (sc : Scorer) (nt ti candidate : String) (threshold : Int) : Bool :=
  decide (threshold ≤ (finalScore sc nt ti candidate : Int))

/-- Qualification as the spec defines it (clip-then-compare): the final
score is clipped to [0,100] first and the clipped score is compared
with the threshold. -/
def spec_qualifies (sc : Scorer) (nt ti candidate : String) (threshold : Int) : Bool :=
  decide (threshold ≤ (min (finalScore sc nt ti candidate) 100 : Int))

/-- `match_authors` as the spec's clip-then-compare scoring defines it:
a candidate is kept exactly when its clipped score reaches the
threshold, and the clipped score is what is kept and ranked. -/
def spec_match_authors (sc : Scorer) (target_author : String)
    (candidate_authors : List String) (threshold : Int) : List (String × Nat) :=
  let normalized_target := normalize_author_name target_author
  let target_initials := extract_initials target_author
  let matchesList := candidate_authors.filterMap (fun candidate =>
    let clipped := min (finalScore sc normalized_target target_initials candidate) 100
    if threshold ≤ (clipped : Int) then some (candidate, clipped) else none)
  sortDescBy (fun m => m.2) matchesList

/-- Python values as they occur in publication records: strings,
non-negative integers, lists, string-keyed dicts (association lists in
insertion order, keys unique as in Python), and tuples encoded as
pairs. -/
inductive PyVal where
  | vstr : String → PyVal
  | vnat : Nat → PyVal
  | vlist : List PyVal → PyVal
  | vdict : List (String × PyVal) → PyVal
  | vpair : PyVal → PyVal → PyVal

/-- A publication record: a Python dict with string keys. -/
abbrev PyDict := List (String × PyVal)

/-- Python `d[k]` / `d.get(k)` on a dict: the binding of `k`, if any. -/
def lookup? (d : PyDict) (k : String) : Option PyVal :=
  match d.find? (fun kv => kv.1 == k) with
  | some kv => some kv.2
  | none => none

/-- Python `k in d` on a dict. -/
def hasKey (d : PyDict) (k : String) : Bool :=
  (d.find? (fun kv => kv.1 == k)).isSome

/-- Python `d[k] = v` on a dict: if the key is present its binding is
updated in place (keys are unique in a Python dict, so at most one
binding changes), otherwise the binding is appended. -/
def setKey (d : PyDict) (k : String) (v : PyVal) : PyDict :=
  if d.any (fun kv => kv.1 == k) then
    d.map (fun kv => if kv.1 == k then (k, v) else kv)
  else d ++ [(k, v)]

/-- Python `str(v)` / `repr(v)` for the values that can appear in a
fallback `authors` list.  `str` of a string is the string itself; for
the other shapes a `repr`-style rendering is produced.  The claims
never inspect this rendering: the produced string is only ever fed to
the scoring pipeline as an opaque candidate name. -/
def pyRepr : PyVal → String
  | .vstr s => "\x27" ++ s ++ "\x27"
  | .vnat n => toString n
  | .vlist l => "[" ++ String.intercalate ", " (l.attach.map (fun x => pyRepr x.1)) ++ "]"
  | .vdict d => "\x7b" ++ String.intercalate ", "
      (d.attach.map (fun x => "\x27" ++ x.1.1 ++ "\x27: " ++ pyRepr x.1.2)) ++ "\x7d"
  | .vpair a b => "(" ++ pyRepr a ++ ", " ++ pyRepr b ++ ")"
decreasing_by
  · have h := List.sizeOf_lt_of_mem x.2
    simp only [PyVal.vlist.sizeOf_spec]
    omega
  · have h := List.sizeOf_lt_of_mem x.2
    have h2 : sizeOf (x.1.2) < sizeOf x.1 := by
      obtain ⟨a, b⟩ := x.1
      simp only [Prod.mk.sizeOf_spec]
      omega
    simp only [PyVal.vdict.sizeOf_spec]
    omega
  · simp only [PyVal.vpair.sizeOf_spec]
    omega
  · simp only [PyVal.vpair.sizeOf_spec]
    omega

/-- Python `str(v)`. -/
def pyStr : PyVal → String
  | .vstr s => s
  | v => pyRepr v

/-- Python substring test `pat in s` for strings. -/
def containsSub (s pat : String) : Bool :=
  decide (List.IsInfix pat.data s.data)

/-- Collect `author["fullName"]` from the items of a structured author
list (`server.py` lines 363-366): items that are dicts carrying a
`fullName` key contribute that value; other items are skipped.  A
`fullName` value that is not a string is collected by the Python code
and then raises when `match_authors` calls `.strip()` on it; that
raise is modelled as the error here (the publication's processing
aborts either way, before anything is added to the output). -/
def collectFullNames : List PyVal → Except Unit (List String)
  | [] => .ok []
  | item :: rest =>
      match item with
      | .vdict ad =>
          match lookup? ad "fullName" with
          | some (.vstr s) =>
              match collectFullNames rest with
              | .ok tail => .ok (s :: tail)
              | .error e => .error e
          | some _ => .error ()
          | none => collectFullNames rest
      | _ => collectFullNames rest

/-- Author-name extraction of
`AuthorDisambiguator.disambiguate_author_publications` (`server.py`
lines 356-375).  First the structured path: if `"authorList" in pub`
and `"author" in pub["authorList"]`, full names are collected from the
author data (a list of dicts, or a single dict).  Python's `in` on a
non-container (`vnat`, `vpair`) raises `TypeError`, as does indexing a
list or a string with `"author"`; those raises are the `.error` cases.
If the structured path yields nothing, the fallback path reads a plain
`authors` field: a list is rendered to strings with `str`, a string
stands alone, anything else is ignored. -/
def extract_pub_authors (pub : PyDict) : Except Unit (List String) :=
  let structured : Except Unit (List String) :=
    match lookup? pub "authorList" with
    | none => .ok []
    | some al =>
        match al with
        | .vdict d =>
            match lookup? d "author" with
            | none => .ok []
            | some authors_data =>
                match authors_data with
                | .vlist items => collectFullNames items
                | .vdict ad =>
                    match lookup? ad "fullName" with
                    | some (.vstr s) => .ok [s]
                    | some _ => .error ()
                    | none => .ok []
                | _ => .ok []
        | .vlist items =>
            if items.any (fun v =>
                match v with
                | .vstr s => s == "author"
                | _ => false) then .error () else .ok []
        | .vstr s => if containsSub s "author" then .error () else .ok []
        | _ => .error ()
  match structured with
  | .error e => .error e
  | .ok pub_authors =>
      if pub_authors.isEmpty then
        match lookup? pub "authors" with
        | some (.vlist items) => .ok (items.map pyStr)
        | some (.vstr s) => .ok [s]
        | some _ => .ok []
        | none => .ok []
      else .ok pub_authors

/-- The value stored under `author_matches`: the list of
`(candidate, score)` tuples. -/
def matchesVal (ms : List (String × Nat)) : PyVal :=
  .vlist (ms.map (fun m => .vpair (.vstr m.1) (.vnat m.2)))

/-- `pub_copy = pub.copy()` followed by the two assignments of
`server.py` lines 382-384: the augmented copy of a surfaced
publication. -/
def augmentPub (pub : PyDict) (ms : List (String × Nat)) (best : Nat) : PyDict :=
  setKey (setKey pub "author_matches" (matchesVal ms)) "best_match_score" (.vnat best)

/-- The contribution of one publication to the pre-sort output of the
disambiguator (`server.py` lines 356-385): `none` when the publication
is dropped (no author names found, or no match above threshold),
`some` of the augmented copy otherwise.  `best_match_score` is
`matches[0][1]`, the score of the head of the descending-sorted match
list. -/
def pubContribution (sc : Scorer) (author_name : String) (threshold : Int)
    (pub : PyDict) : Option PyDict :=
  match extract_pub_authors pub with
  | .error _ => none
  | .ok pub_authors =>
      if pub_authors.isEmpty then none
      else
        match match_authors sc author_name pub_authors threshold with
        | [] => none
        | (c, s) :: ms => some (augmentPub pub ((c, s) :: ms) s)

/-- The publication loop of `disambiguate_author_publications`:
publications are processed in order, a raise while processing any
publication aborts the whole call. -/
def disambiguateAux (sc : Scorer) (author_name : String) (threshold : Int) :
    List PyDict → Except Unit (List PyDict)
  | [] => .ok []
  | pub :: rest =>
      match extract_pub_authors pub with
      | .error e => .error e
      | .ok pub_authors =>
          let contrib : List PyDict :=
            if pub_authors.isEmpty then []
            else
              match match_authors sc author_name pub_authors threshold with
              | [] => []
              | (c, s) :: ms => [augmentPub pub ((c, s) :: ms) s]
          match disambiguateAux sc author_name threshold rest with
          | .error e => .error e
          | .ok tail => .ok (contrib ++ tail)

/-- The sort key of `server.py` line 388:
`x.get("best_match_score", 0)`.  Every element the sort actually sees
carries a `vnat` under this key (it was just assigned); a missing key
gives the Python default 0. -/
def bestMatchKey (d : PyDict) : Nat :=
  match lookup? d "best_match_score" with
  | some (.vnat n) => n
  | _ => 0

/-- `AuthorDisambiguator.disambiguate_author_publications` (`server.py`
lines 344-389): process each publication, keep augmented copies of the
matched ones, and sort the survivors by best match score, descending
and stable. -/
def disambiguate_author_publications (sc : Scorer) (author_name : String)
    (publications : List PyDict) (threshold : Int) : Except Unit (List PyDict) :=
  match disambiguateAux sc author_name threshold publications with
  | .error e => .error e
  | .ok disambiguated => .ok (sortDescBy bestMatchKey disambiguated)

/-- `EuropePMCServer._search_author_publications` (`server.py` lines
811-850), with the network fetch abstracted: `fetched` is the
publication list the remote search would return.  The entry check
`if not author_name` rejects exactly the empty string (a falsy Python
string) before anything else runs; otherwise the call proceeds to
search and disambiguation. -/
def search_author_publications (sc : Scorer) (author_name : String)
    (fetched : List PyDict) (threshold : Int) :
    Except String (Except Unit (List PyDict)) :=
  if author_name = "" then .error "Error: Author name is required"
  else .ok (disambiguate_author_publications sc author_name fetched threshold)

/-- `MAX_RETRIES` (`server.py` line 50). -/
def MAX_RETRIES : Nat := 3

/-- One injected HTTP interaction: a response with a status code and a
body (already decoded; the JSON/XML/raw content-type dispatch of
`server.py` lines 121-132 is orthogonal to the retry control flow the
claims are about), or a network-level failure
(`httpx.RequestError`). -/
inductive InjectedResponse where
  | http : Nat → String → InjectedResponse
  | network : String → InjectedResponse

/-- How one call of `_make_request` ends. -/
inductive RequestOutcome where
  | success : String → RequestOutcome
  | httpStatusError : Nat → String → RequestOutcome
  | requestFailed : String → RequestOutcome
  | exhausted : RequestOutcome
deriving DecidableEq

/-- Observable behaviour of one `_make_request` call: how many requests
were issued, the backoff sleeps in order, and the outcome. -/
structure RequestTrace where
  attempts : Nat
  sleeps : List Nat
  outcome : RequestOutcome
deriving DecidableEq

/-- The retry loop of `EuropePMCClient._make_request` (`server.py`
lines 112-158), driven by a fault injector `inj` giving the response of
each attempt.  `fuel` is the number of loop iterations left
(`MAX_RETRIES - att`), `att` the attempts already issued, `slept` the
backoff sleeps so far in reverse.  Status < 400 succeeds
(`raise_for_status` does not raise).  Status 429 sleeps `2^attempt` and
retries unconditionally.  Status ≥ 500 sleeps and retries only while
`attempt < MAX_RETRIES - 1`, otherwise raises the HTTP-status error.
Any other status ≥ 400 raises the HTTP-status error at once.  Network
errors retry like 5xx and raise a request error when out of attempts.
Falling off the loop raises the failed-after-retries error. -/
def makeRequestAux (inj : Nat → InjectedResponse) :
    Nat → Nat → List Nat → RequestTrace
  | 0, att, slept => ⟨att, slept.reverse, .exhausted⟩
  | fuel + 1, att, slept =>
      match inj att with
      | .http code body =>
          if code < 400 then ⟨att + 1, slept.reverse, .success body⟩
          else if code = 429 then
            makeRequestAux inj fuel (att + 1) (2 ^ att :: slept)
          else if 500 ≤ code then
            if att < MAX_RETRIES - 1 then
              makeRequestAux inj fuel (att + 1) (2 ^ att :: slept)
            else ⟨att + 1, slept.reverse, .httpStatusError code body⟩
          else ⟨att + 1, slept.reverse, .httpStatusError code body⟩
      | .network msg =>
          if att < MAX_RETRIES - 1 then
            makeRequestAux inj fuel (att + 1) (2 ^ att :: slept)
          else ⟨att + 1, slept.reverse, .requestFailed msg⟩

/-- `EuropePMCClient._make_request` under a fault injector. -/
def make_request (inj : Nat → InjectedResponse) : RequestTrace :=
  makeRequestAux inj MAX_RETRIES 0 []

/-- A fault injector that always answers HTTP 503. -/
def inj503 : Nat → InjectedResponse := fun _ => .http 503 "Service Unavailable"

/-- A fault injector that always answers HTTP 429. -/
def inj429 : Nat → InjectedResponse := fun _ => .http 429 "Too Many Requests"

/-- Concrete publication used by witnesses and counterexamples: one
structured author entry with full name `john smith`. -/
def pubJohn : PyDict :=
  [("id", .vstr "1"),
   ("title", .vstr "Paper"),
   ("authorList", .vdict [("author", .vdict [("fullName", .vstr "john smith")])])]

/-- Concrete publication whose only author name normalizes to the empty
string. -/
def pubDr : PyDict :=
  [("id", .vstr "2"),
   ("authorList", .vdict [("author", .vdict [("fullName", .vstr "dr")])])]

theorem char_ofNat_toNat (n : Nat) (h : n < 0xd800) : (Char.ofNat n).toNat = n := by
  simp [Char.ofNat, Char.toNat, Nat.isValidChar, h, Char.ofNatAux, UInt32.toNat]

theorem toLower_fix (c : Char) (h : ¬ (65 ≤ c.toNat ∧ c.toNat ≤ 90)) : c.toLower = c := by
  unfold Char.toLower
  rw [if_neg]
  exact fun hc => h ⟨hc.1, hc.2⟩

theorem toLower_idem (c : Char) : c.toLower.toLower = c.toLower := by
  by_cases h : 65 ≤ c.toNat ∧ c.toNat ≤ 90
  · have h1 : c.toLower = Char.ofNat (c.toNat + 32) := by
      unfold Char.toLower
      rw [if_pos ⟨h.1, h.2⟩]
    have h2 : (Char.ofNat (c.toNat + 32)).toNat = c.toNat + 32 :=
      char_ofNat_toNat _ (by omega)
    rw [h1]
    apply toLower_fix
    rw [h2]
    omega
  · rw [toLower_fix c h, toLower_fix c h]

/-- Every token produced by `splitWsAux` is nonempty and whitespace-free. -/
theorem splitWsAux_good : ∀ (l acc : List Char),
    (∀ c ∈ acc, c.isWhitespace = false) →
    ∀ t ∈ splitWsAux l acc, t ≠ [] ∧ ∀ c ∈ t, c.isWhitespace = false := by
  intro l
  induction l with
  | nil =>
      intro acc hacc t ht
      unfold splitWsAux at ht
      by_cases h : acc.isEmpty
      · rw [if_pos h] at ht
        simp at ht
      · rw [if_neg h] at ht
        simp only [List.mem_singleton] at ht
        subst ht
        refine ⟨?_, ?_⟩
        · simp only [List.isEmpty_iff] at h
          simpa using h
        · intro c hc
          exact hacc c (List.mem_reverse.mp hc)
  | cons c cs ih =>
      intro acc hacc t ht
      unfold splitWsAux at ht
      by_cases hws : c.isWhitespace
      · rw [if_pos hws] at ht
        by_cases h : acc.isEmpty
        · rw [if_pos h] at ht
          exact ih [] (by simp) t ht
        · rw [if_neg h] at ht
          rcases List.mem_cons.mp ht with h1 | h1
          · subst h1
            refine ⟨?_, ?_⟩
            · simp only [List.isEmpty_iff] at h
              simpa using h
            · intro d hd
              exact hacc d (List.mem_reverse.mp hd)
          · exact ih [] (by simp) t h1
      · rw [if_neg hws] at ht
        refine ih (c :: acc) ?_ t ht
        intro d hd
        rcases List.mem_cons.mp hd with h1 | h1
        · subst h1; simpa using hws
        · exact hacc d h1

/-- Characters of tokens of `splitWsAux` come from the input or the accumulator. -/
theorem splitWsAux_sub : ∀ (l acc : List Char), ∀ t ∈ splitWsAux l acc, ∀ c ∈ t, c ∈ l ∨ c ∈ acc := by
  intro l
  induction l with
  | nil =>
      intro acc t ht c hc
      unfold splitWsAux at ht
      by_cases h : acc.isEmpty
      · rw [if_pos h] at ht
        simp at ht
      · rw [if_neg h] at ht
        simp only [List.mem_singleton] at ht
        subst ht
        exact Or.inr (List.mem_reverse.mp hc)
  | cons a as ih =>
      intro acc t ht c hc
      unfold splitWsAux at ht
      by_cases hws : a.isWhitespace
      · rw [if_pos hws] at ht
        by_cases h : acc.isEmpty
        · rw [if_pos h] at ht
          rcases ih [] t ht c hc with h1 | h1
          · exact Or.inl (List.mem_cons_of_mem _ h1)
          · simp at h1
        · rw [if_neg h] at ht
          rcases List.mem_cons.mp ht with h1 | h1
          · subst h1
            exact Or.inr (List.mem_reverse.mp hc)
          · rcases ih [] t h1 c hc with h2 | h2
            · exact Or.inl (List.mem_cons_of_mem _ h2)
            · simp at h2
      · rw [if_neg hws] at ht
        rcases ih (a :: acc) t ht c hc with h1 | h1
        · exact Or.inl (List.mem_cons_of_mem _ h1)
        · rcases List.mem_cons.mp h1 with h2 | h2
          · subst h2; exact Or.inl (List.mem_cons_self _ _)
          · exact Or.inr h2

/-- `splitWsAux` passes over a whitespace-free prefix, accumulating it. -/
theorem splitWsAux_append_nonws : ∀ (t l acc : List Char),
    (∀ c ∈ t, c.isWhitespace = false) →
    splitWsAux (t ++ l) acc = splitWsAux l (t.reverse ++ acc) := by
  intro t
  induction t with
  | nil => intro l acc _; simp
  | cons c cs ih =>
      intro l acc h
      have hc : c.isWhitespace = false := h c (List.mem_cons_self _ _)
      have step : splitWsAux ((c :: cs) ++ l) acc = splitWsAux (cs ++ l) (c :: acc) := by
        show splitWsAux (c :: (cs ++ l)) acc = _
        simp only [splitWsAux]
        rw [if_neg (by simp [hc])]
      rw [step, ih l (c :: acc) (fun d hd => h d (List.mem_cons_of_mem _ hd))]
      simp

theorem joinSp_cons (t : List Char) (ts : List (List Char)) :
    joinSp (t :: ts) = t ++ (if ts.isEmpty then [] else ' ' :: joinSp ts) := by
  cases ts with
  | nil => simp [joinSp]
  | cons u us => simp [joinSp]

/-- Splitting the space-join of nonempty whitespace-free tokens recovers the tokens. -/
theorem splitWs_joinSp : ∀ (ts : List (List Char)),
    (∀ t ∈ ts, t ≠ [] ∧ ∀ c ∈ t, c.isWhitespace = false) →
    splitWs (joinSp ts) = ts := by
  intro ts
  induction ts with
  | nil => intro _; rfl
  | cons t us ih =>
      intro h
      have ht := h t (List.mem_cons_self _ _)
      cases us with
      | nil =>
          show splitWsAux (joinSp [t]) [] = [t]
          show splitWsAux t [] = [t]
          have step := splitWsAux_append_nonws t [] [] ht.2
          simp only [List.append_nil] at step
          rw [step]
          unfold splitWsAux
          rw [if_neg (by simp [List.isEmpty_iff, ht.1])]
          simp
      | cons u vs =>
          show splitWsAux (joinSp (t :: u :: vs)) [] = t :: u :: vs
          show splitWsAux (t ++ ' ' :: joinSp (u :: vs)) [] = t :: u :: vs
          rw [splitWsAux_append_nonws t _ [] ht.2]
          show splitWsAux (' ' :: joinSp (u :: vs)) _ = _
          unfold splitWsAux
          rw [if_pos (by decide)]
          rw [if_neg (by simp [List.isEmpty_iff, ht.1])]
          simp only [List.append_nil, List.reverse_reverse]
          congr 1
          exact ih (fun v hv => h v (List.mem_cons_of_mem _ hv))

/-- `dropWhile` is the identity on a list whose head fails the predicate. -/
theorem dropWhile_cons_neg {p : Char → Bool} {c : Char} {l : List Char} (h : p c = false) :
    (c :: l).dropWhile p = c :: l := by
  simp [List.dropWhile_cons, h]

theorem joinSp_snoc (ts : List (List Char)) (t : List Char) :
    joinSp (ts ++ [t]) = (if ts.isEmpty then [] else joinSp ts ++ [' ']) ++ t := by
  induction ts with
  | nil => simp [joinSp]
  | cons u us ih =>
      rw [List.cons_append, joinSp_cons, ih, joinSp_cons]
      cases us with
      | nil => simp
      | cons v vs => simp

/-- Stripping whitespace is the identity on a space-join of nonempty
whitespace-free tokens. -/
theorem pyStrip_joinSp (ts : List (List Char))
    (h : ∀ t ∈ ts, t ≠ [] ∧ ∀ c ∈ t, c.isWhitespace = false) :
    pyStrip (joinSp ts) = joinSp ts := by
  cases ts with
  | nil => rfl
  | cons t us =>
      have ht := h t (List.mem_cons_self _ _)
      obtain ⟨c, t', rfl⟩ : ∃ c t', t = c :: t' := by
        cases t with
        | nil => exact absurd rfl ht.1
        | cons c t' => exact ⟨c, t', rfl⟩
      have hc : c.isWhitespace = false := ht.2 c (List.mem_cons_self _ _)
      have hfront : (joinSp ((c :: t') :: us)).dropWhile Char.isWhitespace
          = joinSp ((c :: t') :: us) := by
        rw [joinSp_cons]
        show (c :: (t' ++ _)).dropWhile Char.isWhitespace = _
        exact dropWhile_cons_neg hc
      obtain ⟨us', u, hsnoc⟩ : ∃ us' u, (c :: t') :: us = us' ++ [u] := by
        rcases List.eq_nil_or_concat ((c :: t') :: us) with h1 | ⟨us', u, h1⟩
        · simp at h1
        · exact ⟨us', u, by simpa [List.concat_eq_append] using h1⟩
      have hu : u ≠ [] ∧ ∀ d ∈ u, d.isWhitespace = false := by
        apply h
        rw [hsnoc]
        simp
      obtain ⟨e, rest, hrev, he⟩ :
          ∃ e rest, u.reverse = e :: rest ∧ e.isWhitespace = false := by
        cases hr : u.reverse with
        | nil => exact absurd (by simpa using hr) hu.1
        | cons e rest =>
            refine ⟨e, rest, rfl, ?_⟩
            apply hu.2
            rw [← List.mem_reverse, hr]
            exact List.mem_cons_self _ _
      have hback : (joinSp ((c :: t') :: us)).reverse.dropWhile Char.isWhitespace
          = (joinSp ((c :: t') :: us)).reverse := by
        rw [hsnoc, joinSp_snoc, List.reverse_append, hrev]
        show (e :: (rest ++ _)).dropWhile Char.isWhitespace = _
        exact dropWhile_cons_neg he
      unfold pyStrip
      rw [hfront, hback, List.reverse_reverse]

/-- Membership in a space-join: a space, or a character of some token. -/
theorem mem_joinSp : ∀ (ts : List (List Char)) (c : Char), c ∈ joinSp ts →
    c = ' ' ∨ ∃ t ∈ ts, c ∈ t := by
  intro ts
  induction ts with
  | nil => intro c hc; simp [joinSp] at hc
  | cons t us ih =>
      intro c hc
      rw [joinSp_cons] at hc
      rcases List.mem_append.mp hc with h1 | h1
      · exact Or.inr ⟨t, List.mem_cons_self _ _, h1⟩
      · by_cases hus : us.isEmpty
        · rw [if_pos hus] at h1
          simp at h1
        · rw [if_neg hus] at h1
          rcases List.mem_cons.mp h1 with h2 | h2
          · exact Or.inl h2
          · rcases ih c h2 with h3 | ⟨v, hv, hcv⟩
            · exact Or.inl h3
            · exact Or.inr ⟨v, List.mem_cons_of_mem _ hv, hcv⟩

theorem map_fix {f : Char → Char} : ∀ {l : List Char}, (∀ c ∈ l, f c = c) → l.map f = l := by
  intro l
  induction l with
  | nil => intro _; rfl
  | cons c cs ih =>
      intro h
      simp only [List.map_cons]
      rw [h c (List.mem_cons_self _ _), ih (fun d hd => h d (List.mem_cons_of_mem _ hd))]

theorem normalizeAuthorNameL_eq (name : List Char) :
    normalizeAuthorNameL name =
      joinSp ((splitWs (joinSp (splitWs ((pyStrip name).map Char.toLower)))).filter
        (fun w => !(suffixes.contains w))) := rfl

/-- Core of claim C3: the character-list normalization is idempotent. -/
theorem normalizeAuthorNameL_idem (x : List Char) :
    normalizeAuthorNameL (normalizeAuthorNameL x) = normalizeAuthorNameL x := by
  have hgood : ∀ t ∈ splitWs ((pyStrip x).map Char.toLower),
      t ≠ [] ∧ ∀ c ∈ t, c.isWhitespace = false :=
    splitWsAux_good _ [] (by simp)
  have hxval : normalizeAuthorNameL x =
      joinSp ((splitWs ((pyStrip x).map Char.toLower)).filter
        (fun w => !(suffixes.contains w))) := by
    rw [normalizeAuthorNameL_eq, splitWs_joinSp _ hgood]
  set F := (splitWs ((pyStrip x).map Char.toLower)).filter
    (fun w => !(suffixes.contains w)) with hF
  have hFgood : ∀ t ∈ F, t ≠ [] ∧ ∀ c ∈ t, c.isWhitespace = false := by
    intro t ht
    exact hgood t (List.mem_of_mem_filter ht)
  have hychars : ∀ c ∈ joinSp F, Char.toLower c = c := by
    intro c hc
    rcases mem_joinSp F c hc with h1 | ⟨t, ht, hct⟩
    · subst h1; decide
    · have hmem : c ∈ (pyStrip x).map Char.toLower := by
        rcases splitWsAux_sub _ [] t (List.mem_of_mem_filter ht) c hct with h2 | h2
        · exact h2
        · simp at h2
      rcases List.mem_map.mp hmem with ⟨d, _, rfl⟩
      exact toLower_idem d
  have hystrip : pyStrip (joinSp F) = joinSp F := pyStrip_joinSp F hFgood
  have hymap : (joinSp F).map Char.toLower = joinSp F := map_fix hychars
  have hFfilter : F.filter (fun w => !(suffixes.contains w)) = F := by
    rw [List.filter_eq_self]
    intro a ha
    exact (List.mem_filter.mp ha).2
  rw [hxval, normalizeAuthorNameL_eq, hystrip, hymap, splitWs_joinSp F hFgood,
    splitWs_joinSp F hFgood, hFfilter]

theorem insertDescBy_length {α : Type} (key : α → Nat) (x : α) :
    ∀ l : List α, (insertDescBy key x l).length = l.length + 1 := by
  intro l
  induction l with
  | nil => rfl
  | cons y ys ih =>
      unfold insertDescBy
      by_cases h : key y ≤ key x
      · rw [if_pos h]; rfl
      · rw [if_neg h]
        simp only [List.length_cons, ih]

theorem sortDescBy_length {α : Type} (key : α → Nat) :
    ∀ l : List α, (sortDescBy key l).length = l.length := by
  intro l
  induction l with
  | nil => rfl
  | cons x xs ih =>
      unfold sortDescBy
      rw [insertDescBy_length, ih]
      rfl

theorem mem_insertDescBy {α : Type} {key : α → Nat} {x a : α} :
    ∀ {l : List α}, (a ∈ insertDescBy key x l ↔ a = x ∨ a ∈ l) := by
  intro l
  induction l with
  | nil => simp [insertDescBy]
  | cons y ys ih =>
      unfold insertDescBy
      by_cases h : key y ≤ key x
      · rw [if_pos h]
        simp [List.mem_cons]
      · rw [if_neg h]
        simp only [List.mem_cons, ih]
        tauto

theorem mem_sortDescBy {α : Type} {key : α → Nat} {a : α} :
    ∀ {l : List α}, (a ∈ sortDescBy key l ↔ a ∈ l) := by
  intro l
  induction l with
  | nil => simp [sortDescBy]
  | cons x xs ih =>
      unfold sortDescBy
      rw [mem_insertDescBy]
      simp only [List.mem_cons, ih]

theorem pairwise_insertDescBy {α : Type} {key : α → Nat} {x : α} :
    ∀ {l : List α}, List.Pairwise (fun a b => key b ≤ key a) l →
      List.Pairwise (fun a b => key b ≤ key a) (insertDescBy key x l) := by
  intro l
  induction l with
  | nil => intro _; simp [insertDescBy]
  | cons y ys ih =>
      intro h
      rcases List.pairwise_cons.mp h with ⟨hy, hys⟩
      unfold insertDescBy
      by_cases hk : key y ≤ key x
      · rw [if_pos hk]
        refine List.pairwise_cons.mpr ⟨?_, h⟩
        intro b hb
        rcases List.mem_cons.mp hb with rfl | hb
        · exact hk
        · exact le_trans (hy b hb) hk
      · rw [if_neg hk]
        refine List.pairwise_cons.mpr ⟨?_, ih hys⟩
        intro b hb
        rcases mem_insertDescBy.mp hb with rfl | hb
        · omega
        · exact hy b hb

theorem pairwise_sortDescBy {α : Type} (key : α → Nat) :
    ∀ l : List α, List.Pairwise (fun a b => key b ≤ key a) (sortDescBy key l) := by
  intro l
  induction l with
  | nil => simp [sortDescBy]
  | cons x xs ih =>
      unfold sortDescBy
      exact pairwise_insertDescBy ih

/-- Filtering on one key value commutes with the stable descending
insertion: the inserted element lands in front of the equal-key block. -/
theorem filter_insertDescBy {α : Type} (key : α → Nat) (x : α) (s : Nat) :
    ∀ l : List α, (insertDescBy key x l).filter (fun a => key a == s) =
      (if key x == s then [x] else []) ++ l.filter (fun a => key a == s) := by
  intro l
  induction l with
  | nil =>
      show [x].filter (fun a => key a == s) = _
      by_cases h : key x == s
      · simp [List.filter_cons, h]
      · simp [List.filter_cons, h]
  | cons y ys ih =>
      unfold insertDescBy
      by_cases hk : key y ≤ key x
      · rw [if_pos hk]
        by_cases hx : key x == s
        · simp [List.filter_cons, hx]
        · simp [List.filter_cons, hx]
      · rw [if_neg hk]
        have hy : (key y == s) = (key y == s) := rfl
        by_cases hys : key y == s
        · -- key y = s and key y > key x would give key x < s; both sides keep y first
          -- but x is inserted later anyway since key x < key y = s
          have hxs : ¬ (key x == s) = true := by
            have h1 : key y = s := by simpa using hys
            have h2 : key x < key y := Nat.lt_of_not_le hk
            simp only [beq_iff_eq]
            omega
          rw [List.filter_cons_of_pos (by simpa using hys)]
          rw [ih]
          rw [List.filter_cons_of_pos (by simpa using hys)]
          simp [hxs]
        · rw [List.filter_cons_of_neg (by simpa using hys)]
          rw [ih]
          rw [List.filter_cons_of_neg (by simpa using hys)]

theorem filter_sortDescBy {α : Type} (key : α → Nat) (s : Nat) :
    ∀ l : List α, (sortDescBy key l).filter (fun a => key a == s) =
      l.filter (fun a => key a == s) := by
  intro l
  induction l with
  | nil => rfl
  | cons x xs ih =>
      unfold sortDescBy
      rw [filter_insertDescBy, ih]
      by_cases hx : key x == s
      · rw [if_pos hx, List.filter_cons_of_pos (by simpa using hx)]
        rfl
      · rw [if_neg hx, List.filter_cons_of_neg (by simpa using hx)]
        rfl

/-- The head of a descending-sorted list carries the maximal key. -/
theorem sortDescBy_head_max {α : Type} {key : α → Nat} {l : List α} {x : α} {xs : List α}
    (h : sortDescBy key l = x :: xs) : ∀ a ∈ x :: xs, key a ≤ key x := by
  have hp := pairwise_sortDescBy key l
  rw [h] at hp
  rcases List.pairwise_cons.mp hp with ⟨hx, _⟩
  intro a ha
  rcases List.mem_cons.mp ha with rfl | ha
  · exact le_refl _
  · exact hx a ha

/-- `filterMap` length is monotone under pointwise definedness. -/
theorem filterMap_length_mono {α β : Type} (f g : α → Option β)
    (h : ∀ a, (f a).isSome → (g a).isSome) :
    ∀ l : List α, (l.filterMap f).length ≤ (l.filterMap g).length := by
  intro l
  induction l with
  | nil => simp
  | cons a as ih =>
      rw [List.filterMap_cons, List.filterMap_cons]
      cases hf : f a with
      | none =>
          cases hg : g a with
          | none => exact ih
          | some b => simpa using Nat.le_succ_of_le ih
      | some b =>
          cases hg : g a with
          | none =>
              have := h a
              rw [hf, hg] at this
              simp at this
          | some c => simpa using Nat.succ_le_succ ih

theorem lookup?_cons (kv : String × PyVal) (d : PyDict) (k : String) :
    lookup? (kv :: d) k = if kv.1 == k then some kv.2 else lookup? d k := by
  by_cases h : kv.1 == k
  · simp [lookup?, List.find?_cons, h]
  · simp [lookup?, List.find?_cons, h]

theorem lookup?_setKey_same (d : PyDict) (k : String) (v : PyVal) :
    lookup? (setKey d k v) k = some v := by
  unfold setKey
  by_cases h : d.any (fun kv => kv.1 == k)
  · rw [if_pos h]
    induction d with
    | nil => simp at h
    | cons kv rest ih =>
        rw [List.map_cons]
        by_cases hk : kv.1 == k
        · rw [if_pos hk, lookup?_cons]
          simp
        · rw [if_neg hk, lookup?_cons, if_neg hk]
          apply ih
          simp only [List.any_cons, hk, Bool.false_or] at h
          exact h
  · rw [if_neg h]
    induction d with
    | nil => simp [lookup?_cons]
    | cons kv rest ih =>
        rw [List.cons_append, lookup?_cons]
        have hk : (kv.1 == k) = false := by
          by_contra hc
          apply h
          simp only [List.any_cons]
          simp only [Bool.not_eq_false] at hc
          rw [hc]
          simp
        rw [hk]
        simp only [Bool.false_eq_true, if_false]
        apply ih
        intro hc
        apply h
        simp only [List.any_cons, hc]
        simp

theorem lookup?_setKey_other (d : PyDict) (k k' : String) (v : PyVal) (hne : k' ≠ k) :
    lookup? (setKey d k v) k' = lookup? d k' := by
  unfold setKey
  by_cases h : d.any (fun kv => kv.1 == k)
  · rw [if_pos h]
    clear h
    induction d with
    | nil => rfl
    | cons kv rest ih =>
        rw [List.map_cons]
        by_cases hk : kv.1 == k
        · rw [if_pos hk, lookup?_cons, lookup?_cons]
          have h1 : kv.1 = k := by simpa using hk
          have h2 : (k == k') = false := by
            simp only [beq_eq_false_iff_ne, ne_eq]
            exact fun hc => hne hc.symm
          have h3 : (kv.1 == k') = false := by
            rw [h1]
            exact h2
          rw [h2, h3]
          simp only [Bool.false_eq_true, if_false]
          exact ih
        · rw [if_neg hk, lookup?_cons, lookup?_cons]
          by_cases hk' : kv.1 == k'
          · rw [hk', if_pos rfl, if_pos rfl]
          · have : (kv.1 == k') = false := by simpa using hk'
            rw [this]
            simp only [Bool.false_eq_true, if_false]
            exact ih
  · rw [if_neg h]
    induction d with
    | nil =>
        rw [List.nil_append, lookup?_cons]
        have h2 : (k == k') = false := by
          simp only [beq_eq_false_iff_ne, ne_eq]
          exact fun hc => hne hc.symm
        rw [h2]
        simp [lookup?]
    | cons kv rest ih =>
        rw [List.cons_append, lookup?_cons, lookup?_cons]
        by_cases hk' : kv.1 == k'
        · rw [hk', if_pos rfl, if_pos rfl]
        · have hfalse : (kv.1 == k') = false := by simpa using hk'
          rw [hfalse]
          simp only [Bool.false_eq_true, if_false]
          apply ih
          intro hc
          apply h
          simp only [List.any_cons, hc]
          simp

theorem match_authors_eq (sc : Scorer) (target_author : String)
    (candidate_authors : List String) (threshold : Int) :
    match_authors sc target_author candidate_authors threshold =
      sortDescBy (fun m => m.2) (candidate_authors.filterMap (fun candidate =>
        if threshold ≤ ((finalScore sc (normalize_author_name target_author)
            (extract_initials target_author) candidate : Nat) : Int) then
          some (candidate, min (finalScore sc (normalize_author_name target_author)
            (extract_initials target_author) candidate) 100)
        else none)) := rfl

/-- Characterization of the members of `match_authors`: each is a kept
candidate carrying its clipped score, and its unclipped score reached
the threshold. -/
theorem mem_match_authors {sc : Scorer} {target : String} {cands : List String}
    {threshold : Int} {m : String × Nat} :
    m ∈ match_authors sc target cands threshold ↔
      ∃ cand ∈ cands,
        threshold ≤ ((finalScore sc (normalize_author_name target)
          (extract_initials target) cand : Nat) : Int) ∧
        m = (cand, min (finalScore sc (normalize_author_name target)
          (extract_initials target) cand) 100) := by
  rw [match_authors_eq, mem_sortDescBy, List.mem_filterMap]
  constructor
  · rintro ⟨cand, hcand, hsome⟩
    by_cases h : threshold ≤ ((finalScore sc (normalize_author_name target)
        (extract_initials target) cand : Nat) : Int)
    · rw [if_pos h] at hsome
      exact ⟨cand, hcand, h, (Option.some_inj.mp hsome).symm⟩
    · rw [if_neg h] at hsome
      simp at hsome
  · rintro ⟨cand, hcand, h, rfl⟩
    exact ⟨cand, hcand, by rw [if_pos h]⟩

theorem pubContribution_eq_some {sc : Scorer} {n : String} {t : Int} {pub p : PyDict}
    (h : pubContribution sc n t pub = some p) :
    ∃ pa, extract_pub_authors pub = .ok pa ∧ pa ≠ [] ∧
      ∃ c s ms, match_authors sc n pa t = (c, s) :: ms ∧
        p = augmentPub pub ((c, s) :: ms) s := by
  unfold pubContribution at h
  cases hext : extract_pub_authors pub with
  | error e => rw [hext] at h; simp at h
  | ok pa =>
      rw [hext] at h
      dsimp only at h
      by_cases hemp : pa.isEmpty
      · rw [if_pos hemp] at h
        simp at h
      · rw [if_neg hemp] at h
        cases hm : match_authors sc n pa t with
        | nil => rw [hm] at h; simp at h
        | cons cs ms =>
            rw [hm] at h
            dsimp only at h
            refine ⟨pa, rfl, by simpa [List.isEmpty_iff] using hemp, cs.1, cs.2, ms, ?_, ?_⟩
            · rw [← hm]
            · simpa using (Option.some_inj.mp h).symm

/-- A successful pass of the publication loop is the in-order
`filterMap` of the per-publication contribution. -/
theorem disambiguateAux_ok {sc : Scorer} {n : String} {t : Int} :
    ∀ {pubs : List PyDict} {base : List PyDict},
      disambiguateAux sc n t pubs = .ok base →
      base = pubs.filterMap (pubContribution sc n t) := by
  intro pubs
  induction pubs with
  | nil =>
      intro base h
      simp only [disambiguateAux] at h
      simpa using (Except.ok.inj h).symm
  | cons pub rest ih =>
      intro base h
      simp only [disambiguateAux] at h
      rw [List.filterMap_cons]
      cases hext : extract_pub_authors pub with
      | error e => rw [hext] at h; simp at h
      | ok pa =>
          rw [hext] at h
          dsimp only at h
          cases haux : disambiguateAux sc n t rest with
          | error e => rw [haux] at h; simp at h
          | ok tail =>
              rw [haux] at h
              dsimp only at h
              have hbase : base =
                  (if pa.isEmpty then []
                   else
                     match match_authors sc n pa t with
                     | [] => []
                     | (c, s) :: ms => [augmentPub pub ((c, s) :: ms) s]) ++ tail :=
                (Except.ok.inj h).symm
              have htail : tail = rest.filterMap (pubContribution sc n t) := ih haux
              rw [hbase, htail]
              unfold pubContribution
              rw [hext]
              dsimp only
              by_cases hemp : pa.isEmpty
              · rw [if_pos hemp, if_pos hemp]
                rfl
              · rw [if_neg hemp, if_neg hemp]
                cases hm : match_authors sc n pa t with
                | nil => rfl
                | cons cs ms => rfl

theorem disambiguate_ok {sc : Scorer} {n : String} {pubs : List PyDict} {t : Int}
    {out : List PyDict}
    (h : disambiguate_author_publications sc n pubs t = .ok out) :
    disambiguateAux sc n t pubs = .ok (pubs.filterMap (pubContribution sc n t)) ∧
      out = sortDescBy bestMatchKey (pubs.filterMap (pubContribution sc n t)) := by
  unfold disambiguate_author_publications at h
  cases haux : disambiguateAux sc n t pubs with
  | error e => rw [haux] at h; simp at h
  | ok base =>
      rw [haux] at h
      dsimp only at h
      have hbase := disambiguateAux_ok haux
      subst hbase
      exact ⟨rfl, (Except.ok.inj h).symm⟩

theorem lookup?_augmentPub_best (pub : PyDict) (ms : List (String × Nat)) (best : Nat) :
    lookup? (augmentPub pub ms best) "best_match_score" = some (.vnat best) := by
  unfold augmentPub
  exact lookup?_setKey_same _ _ _

theorem lookup?_augmentPub_matches (pub : PyDict) (ms : List (String × Nat)) (best : Nat) :
    lookup? (augmentPub pub ms best) "author_matches" = some (matchesVal ms) := by
  unfold augmentPub
  rw [lookup?_setKey_other _ _ _ _ (by decide)]
  exact lookup?_setKey_same _ _ _

theorem lookup?_augmentPub_other (pub : PyDict) (ms : List (String × Nat)) (best : Nat)
    (k : String) (h1 : k ≠ "author_matches") (h2 : k ≠ "best_match_score") :
    lookup? (augmentPub pub ms best) k = lookup? pub k := by
  unfold augmentPub
  rw [lookup?_setKey_other _ _ _ _ h2, lookup?_setKey_other _ _ _ _ h1]

theorem bestMatchKey_augmentPub (pub : PyDict) (ms : List (String × Nat)) (best : Nat) :
    bestMatchKey (augmentPub pub ms best) = best := by
  unfold bestMatchKey
  rw [lookup?_augmentPub_best]

/-- C3: name normalization is idempotent: for every input string,
normalizing twice gives the same result as normalizing once. -/
theorem normalize_author_name_idempotent (x : String) :
    normalize_author_name (normalize_author_name x) = normalize_author_name x := by
  unfold normalize_author_name
  exact congrArg String.mk (normalizeAuthorNameL_idem x.data)

/-- C8 counterexample: on the input `"-john smith"` the token `-john`
begins with a non-alphabetic character; the claim says its first
alphabetic character `j` is taken (giving `JS`), but
`extract_initials` skips the whole token and returns `S`. -/
theorem extract_initials_counterexample :
    extract_initials "-john smith" = "S" ∧
    claimed_extract_initials "-john smith" = "JS" ∧
    extract_initials "-john smith" ≠ claimed_extract_initials "-john smith" := by
  refine ⟨by decide, by decide, by decide⟩

/-- C8 (amended): `extract_initials` concatenates, in token order, the
uppercased first character of each whitespace-separated token whose
first character is alphabetic; tokens whose first character is not
alphabetic contribute nothing. -/
theorem extract_initials_skips_nonalpha_tokens (name : String) :
    extract_initials name = skip_token_initials name := by
  unfold extract_initials skip_token_initials
  apply congrArg String.mk
  generalize splitWs (pyStrip name.data) = ws
  induction ws with
  | nil => rfl
  | cons w rest ih =>
      cases w with
      | nil =>
          rw [List.filterMap_cons, List.filter_cons]
          simpa using ih
      | cons c cs =>
          by_cases h : c.isAlpha
          · rw [List.filterMap_cons]
            rw [List.filter_cons_of_pos (by simpa using h)]
            simp only [if_pos h, List.map_cons]
            rw [ih]
            rfl
          · rw [List.filterMap_cons]
            rw [List.filter_cons_of_neg (by simpa using h)]
            simp only [if_neg h]
            exact ih

/-- C10: the nonempty name `"Dr"` consists only of recognized
suffix/title tokens, `normalize_author_name` maps it to the empty
string, and `match_authors` with it as target returns normally,
scoring candidates against the empty normalized string (the candidate
`"MD PhD"` also normalizes to empty and matches with score 100; the
source has no emptiness check and the embedding is total). -/
theorem suffix_only_name_scores_normally :
    ("Dr" : String) ≠ "" ∧ normalize_author_name "Dr" = "" ∧
    match_authors eqScorer "Dr" ["MD PhD"] 80 = [("MD PhD", 100)] := by
  refine ⟨by decide, by decide, by decide⟩

/-- C6 counterexample: the whitespace-only target `" "` is not empty,
so the entry check `if not author_name` does not fire: the call
proceeds, scoring happens (the candidate `dr` of `pubDr` is scored 100
against the whitespace target) and the result is a normal success, not
an InvalidArgument-style error. -/
theorem whitespace_name_not_rejected :
    (" " : String) ≠ "" ∧
    search_author_publications eqScorer " " [pubDr] 80 =
      .ok (.ok [augmentPub pubDr [("dr", 100)] 100]) := by
  refine ⟨by decide, by rfl⟩

/-- C6 (amended): the author-search entry check rejects exactly the
empty target name with the caller error, before search or scoring; any
nonempty target, whitespace-only included, proceeds to search and
disambiguation. -/
theorem empty_name_guard (sc : Scorer) (author_name : String)
    (fetched : List PyDict) (t : Int) :
    (author_name = "" →
      search_author_publications sc author_name fetched t =
        .error "Error: Author name is required") ∧
    (author_name ≠ "" →
      search_author_publications sc author_name fetched t =
        .ok (disambiguate_author_publications sc author_name fetched t)) := by
  constructor
  · intro h
    unfold search_author_publications
    rw [if_pos h]
  · intro h
    unfold search_author_publications
    rw [if_neg h]

/-- Witness for the amended C6 theorem at concrete inputs. -/
theorem empty_name_guard_witness :
    search_author_publications eqScorer "" [] 80 =
      .error "Error: Author name is required" ∧
    search_author_publications eqScorer " " [] 80 =
      .ok (disambiguate_author_publications eqScorer " " [] 80) :=
  ⟨(empty_name_guard eqScorer "" [] 80).1 rfl,
   (empty_name_guard eqScorer " " [] 80).2 (by decide)⟩

/-- C7: scoring is clip-then-compare: for every threshold in the
tool's admitted range (50-100), a candidate qualifies exactly when the
clipped score reaches the threshold, and the spec's clip-then-compare
matcher agrees with the source's compare-then-clip matcher. -/
theorem clip_then_compare_agrees (sc : Scorer) (target : String)
    (cands : List String) (t : Int) (h50 : 50 ≤ t) (h100 : t ≤ 100) :
    (∀ nt ti cand, code_qualifies sc nt ti cand t = spec_qualifies sc nt ti cand t) ∧
    match_authors sc target cands t = spec_match_authors sc target cands t := by
  have key : ∀ a : Nat, (t ≤ (a : Int)) ↔ (t ≤ ((min a 100 : Nat) : Int)) := by
    intro a
    rcases Nat.le_total a 100 with hle | hle
    · rw [Nat.min_eq_left hle]
    · rw [Nat.min_eq_right hle]
      constructor
      · intro _
        exact_mod_cast h100
      · intro _
        have : ((100 : Nat) : Int) ≤ (a : Int) := by exact_mod_cast hle
        omega
  constructor
  · intro nt ti cand
    unfold code_qualifies spec_qualifies
    simp only [decide_eq_decide]
    have h1 := key (finalScore sc nt ti cand)
    rw [Nat.cast_min] at h1
    simpa using h1
  · unfold match_authors spec_match_authors
    dsimp only
    congr 1
    apply List.filterMap_congr
    intro cand _
    by_cases h : t ≤ ((finalScore sc (normalize_author_name target)
        (extract_initials target) cand : Nat) : Int)
    · rw [if_pos h, if_pos ((key _).mp h)]
    · rw [if_neg h, if_neg (fun hc => h ((key _).mpr hc))]

/-- Witness for the C7 theorem at concrete inputs. -/
theorem clip_then_compare_agrees_witness :
    (∀ nt ti cand, code_qualifies eqScorer nt ti cand 80 =
      spec_qualifies eqScorer nt ti cand 80) ∧
    match_authors eqScorer "john smith" ["john smith"] 80 =
      spec_match_authors eqScorer "john smith" ["john smith"] 80 :=
  clip_then_compare_agrees eqScorer "john smith" ["john smith"] 80
    (by decide) (by decide)

/-- C1 counterexample: at threshold 105 (above 100) the publication
`pubJohn` is still surfaced — the unclipped score 110 passes the
compare — but its only attached MatchResult carries the clipped score
100, which is below the threshold, refuting the claim for arbitrary
thresholds. -/
theorem score_clip_threshold_counterexample :
    disambiguate_author_publications eqScorer "john smith" [pubJohn] 105 =
      .ok [augmentPub pubJohn [("john smith", 100)] 100] ∧
    lookup? (augmentPub pubJohn [("john smith", 100)] 100) "author_matches" =
      some (matchesVal [("john smith", 100)]) ∧
    ¬ ((105 : Int) ≤ ((100 : Nat) : Int)) := by
  refine ⟨by rfl, by rfl, by decide⟩

/-- C1 (amended): for every threshold at most 100 — which covers the
tool's admitted 50-100 range — every publication returned by
`disambiguate_author_publications` carries a nonempty `author_matches`
list in which every score reaches the threshold, and its
`best_match_score` equals the maximum of those scores (it is attained
and bounds them all). -/
theorem disambiguated_matches_reach_threshold (sc : Scorer) (author_name : String)
    (pubs : List PyDict) (t : Int) (ht : t ≤ 100) (out : List PyDict)
    (hout : disambiguate_author_publications sc author_name pubs t = .ok out) :
    ∀ p ∈ out, ∃ ms : List (String × Nat), ms ≠ [] ∧
      lookup? p "author_matches" = some (matchesVal ms) ∧
      (∀ m ∈ ms, t ≤ (m.2 : Int)) ∧
      ∃ best, lookup? p "best_match_score" = some (.vnat best) ∧
        (∃ m ∈ ms, m.2 = best) ∧ ∀ m ∈ ms, m.2 ≤ best := by
  intro p hp
  obtain ⟨-, hout2⟩ := disambiguate_ok hout
  rw [hout2, mem_sortDescBy] at hp
  rcases List.mem_filterMap.mp hp with ⟨pub, hpub, hc⟩
  obtain ⟨pa, hext, hne, c, s, ms', hm, rfl⟩ := pubContribution_eq_some hc
  have hhead : ∀ m ∈ (c, s) :: ms', m.2 ≤ s := by
    have h := sortDescBy_head_max
      ((match_authors_eq sc author_name pa t).symm.trans hm)
    simpa using h
  refine ⟨(c, s) :: ms', by simp,
    lookup?_augmentPub_matches _ _ _, ?_, s,
    lookup?_augmentPub_best _ _ _,
    ⟨(c, s), List.mem_cons_self _ _, rfl⟩, hhead⟩
  intro m hmem
  rw [← hm] at hmem
  rcases mem_match_authors.mp hmem with ⟨cand, _, hth, rfl⟩
  rcases Nat.le_total (finalScore sc (normalize_author_name author_name)
      (extract_initials author_name) cand) 100 with hle | hle
  · show t ≤ ((min (finalScore sc (normalize_author_name author_name)
      (extract_initials author_name) cand) 100 : Nat) : Int)
    rw [Nat.min_eq_left hle]
    exact hth
  · show t ≤ ((min (finalScore sc (normalize_author_name author_name)
      (extract_initials author_name) cand) 100 : Nat) : Int)
    rw [Nat.min_eq_right hle]
    exact_mod_cast ht

/-- Witness for the amended C1 theorem at concrete inputs. -/
theorem disambiguated_matches_reach_threshold_witness :
    ∃ ms : List (String × Nat), ms ≠ [] ∧
      lookup? (augmentPub pubJohn [("john smith", 100)] 100) "author_matches" =
        some (matchesVal ms) ∧
      (∀ m ∈ ms, (80 : Int) ≤ (m.2 : Int)) ∧
      ∃ best, lookup? (augmentPub pubJohn [("john smith", 100)] 100)
          "best_match_score" = some (.vnat best) ∧
        (∃ m ∈ ms, m.2 = best) ∧ ∀ m ∈ ms, m.2 ≤ best :=
  disambiguated_matches_reach_threshold eqScorer "john smith" [pubJohn] 80
    (by decide) [augmentPub pubJohn [("john smith", 100)] 100] (by rfl)
    (augmentPub pubJohn [("john smith", 100)] 100) (List.mem_singleton.mpr rfl)

/-- `match_authors` keeps at most as many candidates when the
threshold is raised. -/
theorem match_authors_length_antitone (sc : Scorer) (target : String)
    (cands : List String) {t1 t2 : Int} (h : t1 ≤ t2) :
    (match_authors sc target cands t2).length ≤
      (match_authors sc target cands t1).length := by
  rw [match_authors_eq, match_authors_eq, sortDescBy_length, sortDescBy_length]
  apply filterMap_length_mono
  intro cand
  by_cases hq : t2 ≤ ((finalScore sc (normalize_author_name target)
      (extract_initials target) cand : Nat) : Int)
  · rw [if_pos hq, if_pos (le_trans h hq)]
    simp
  · rw [if_neg hq]
    simp

/-- A publication surfaced at the higher threshold is surfaced at the
lower one. -/
theorem pubContribution_isSome_antitone (sc : Scorer) (n : String) {t1 t2 : Int}
    (h : t1 ≤ t2) (pub : PyDict) :
    (pubContribution sc n t2 pub).isSome → (pubContribution sc n t1 pub).isSome := by
  unfold pubContribution
  cases hext : extract_pub_authors pub with
  | error e => simp
  | ok pa =>
      dsimp only
      by_cases hemp : pa.isEmpty
      · rw [if_pos hemp, if_pos hemp]
        exact id
      · rw [if_neg hemp, if_neg hemp]
        intro hsome
        cases hm2 : match_authors sc n pa t2 with
        | nil => rw [hm2] at hsome; simp at hsome
        | cons x ms2 =>
            have hlen := match_authors_length_antitone sc n pa h
            cases hm1 : match_authors sc n pa t1 with
            | nil =>
                rw [hm1, hm2] at hlen
                simp at hlen
            | cons y ms1 => simp

/-- C4: filtering is antitone in the threshold: with the target and
publication list fixed, raising the threshold never lengthens the
returned list. -/
theorem filtering_antitone (sc : Scorer) (author_name : String)
    (pubs : List PyDict) (t1 t2 : Int) (h12 : t1 ≤ t2)
    (out1 out2 : List PyDict)
    (h1 : disambiguate_author_publications sc author_name pubs t1 = .ok out1)
    (h2 : disambiguate_author_publications sc author_name pubs t2 = .ok out2) :
    out2.length ≤ out1.length := by
  obtain ⟨-, e1⟩ := disambiguate_ok h1
  obtain ⟨-, e2⟩ := disambiguate_ok h2
  rw [e1, e2, sortDescBy_length, sortDescBy_length]
  exact filterMap_length_mono _ _
    (fun pub => pubContribution_isSome_antitone sc author_name h12 pub) pubs

/-- Witness for the C4 theorem at concrete inputs: threshold 200 drops
the publication that threshold 80 keeps. -/
theorem filtering_antitone_witness :
    ([] : List PyDict).length ≤
      [augmentPub pubJohn [("john smith", 100)] 100].length :=
  filtering_antitone eqScorer "john smith" [pubJohn] 80 200 (by decide)
    [augmentPub pubJohn [("john smith", 100)] 100] [] (by rfl) (by rfl)

/-- C5: the returned ranking is sorted by `best_match_score`
descending, and it is stable: for every score value, the publications
carrying that score appear in the same relative order as in the
pre-sort pass, which itself processes the input publications in
order (it is the in-order `filterMap` of the per-publication
contribution). -/
theorem ranking_sorted_and_stable (sc : Scorer) (author_name : String)
    (pubs : List PyDict) (t : Int) (out : List PyDict)
    (hout : disambiguate_author_publications sc author_name pubs t = .ok out) :
    List.Pairwise (fun a b => bestMatchKey b ≤ bestMatchKey a) out ∧
    ∀ s : Nat, out.filter (fun p => bestMatchKey p == s) =
      (pubs.filterMap (pubContribution sc author_name t)).filter
        (fun p => bestMatchKey p == s) := by
  obtain ⟨-, e⟩ := disambiguate_ok hout
  rw [e]
  exact ⟨pairwise_sortDescBy _ _, fun s => filter_sortDescBy _ s _⟩

/-- Witness for the C5 theorem at concrete inputs. -/
theorem ranking_sorted_and_stable_witness :
    List.Pairwise (fun a b => bestMatchKey b ≤ bestMatchKey a)
      [augmentPub pubJohn [("john smith", 100)] 100] ∧
    [augmentPub pubJohn [("john smith", 100)] 100].filter
        (fun p => bestMatchKey p == 100) =
      ([pubJohn].filterMap (pubContribution eqScorer "john smith" 80)).filter
        (fun p => bestMatchKey p == 100) :=
  ⟨(ranking_sorted_and_stable eqScorer "john smith" [pubJohn] 80
      [augmentPub pubJohn [("john smith", 100)] 100] (by rfl)).1,
   (ranking_sorted_and_stable eqScorer "john smith" [pubJohn] 80
      [augmentPub pubJohn [("john smith", 100)] 100] (by rfl)).2 100⟩

/-- C9: disambiguation never mutates its input (the embedding is a
pure function of the input list, which is left untouched), and every
surfaced record is an augmented copy of an input record: it equals an
input record with the `author_matches` and `best_match_score` fields
assigned on a copy, and every other key's binding is unchanged. -/
theorem disambiguation_returns_augmented_copies (sc : Scorer)
    (author_name : String) (pubs : List PyDict) (t : Int) (out : List PyDict)
    (hout : disambiguate_author_publications sc author_name pubs t = .ok out) :
    ∀ p ∈ out, ∃ src ∈ pubs,
      (∃ ms best, p = augmentPub src ms best) ∧
      ∀ k, k ≠ "author_matches" → k ≠ "best_match_score" →
        lookup? p k = lookup? src k := by
  intro p hp
  obtain ⟨-, e⟩ := disambiguate_ok hout
  rw [e, mem_sortDescBy] at hp
  rcases List.mem_filterMap.mp hp with ⟨pub, hpub, hc⟩
  obtain ⟨pa, hext, hne, c, s, ms', hm, rfl⟩ := pubContribution_eq_some hc
  refine ⟨pub, hpub, ⟨(c, s) :: ms', s, rfl⟩, ?_⟩
  intro k h1 h2
  exact lookup?_augmentPub_other _ _ _ _ h1 h2

/-- Witness for the C9 theorem at concrete inputs. -/
theorem disambiguation_returns_augmented_copies_witness :
    ∃ src ∈ [pubJohn],
      (∃ ms best, augmentPub pubJohn [("john smith", 100)] 100 =
        augmentPub src ms best) ∧
      ∀ k, k ≠ "author_matches" → k ≠ "best_match_score" →
        lookup? (augmentPub pubJohn [("john smith", 100)] 100) k =
          lookup? src k :=
  disambiguation_returns_augmented_copies eqScorer "john smith" [pubJohn] 80
    [augmentPub pubJohn [("john smith", 100)] 100] (by rfl)
    (augmentPub pubJohn [("john smith", 100)] 100) (List.mem_singleton.mpr rfl)

theorem makeRequestAux_step_5xx (inj : Nat → InjectedResponse) (fuel att : Nat)
    (slept : List Nat) (code : Nat) (body : String) (hcode : 500 ≤ code)
    (hinj : inj att = .http code body) (hatt : att < MAX_RETRIES - 1) :
    makeRequestAux inj (fuel + 1) att slept =
      makeRequestAux inj fuel (att + 1) (2 ^ att :: slept) := by
  simp only [makeRequestAux, hinj]
  rw [if_neg (by omega), if_neg (by omega), if_pos hcode, if_pos hatt]

theorem makeRequestAux_last_5xx (inj : Nat → InjectedResponse) (fuel att : Nat)
    (slept : List Nat) (code : Nat) (body : String) (hcode : 500 ≤ code)
    (hinj : inj att = .http code body) (hatt : ¬ att < MAX_RETRIES - 1) :
    makeRequestAux inj (fuel + 1) att slept =
      ⟨att + 1, slept.reverse, .httpStatusError code body⟩ := by
  simp only [makeRequestAux, hinj]
  rw [if_neg (by omega), if_neg (by omega), if_pos hcode, if_neg hatt]

theorem makeRequestAux_step_429 (inj : Nat → InjectedResponse) (fuel att : Nat)
    (slept : List Nat) (body : String) (hinj : inj att = .http 429 body) :
    makeRequestAux inj (fuel + 1) att slept =
      makeRequestAux inj fuel (att + 1) (2 ^ att :: slept) := by
  simp only [makeRequestAux, hinj]
  simp

/-- C2 counterexample: under the always-503 fault injector the call
does perform exactly `MAX_RETRIES` (3) attempts, but the final failure
is the HTTP-status error carrying 503 — raised at `server.py` line 148
because the 5xx branch stops retrying on the last attempt — not the
exhausted-retries error of line 158 that the claim names. -/
theorem always_503_final_error_counterexample :
    make_request inj503 =
      ⟨3, [1, 2], .httpStatusError 503 "Service Unavailable"⟩ ∧
    (make_request inj503).outcome ≠ .exhausted := by
  refine ⟨by rfl, by decide⟩

/-- C2 (amended): under a fault injector that always answers a fixed
5xx status, `_make_request` issues exactly `MAX_RETRIES` attempts,
sleeping `2^attempt` seconds after each attempt that has attempts
remaining, and fails with the HTTP-status error carrying that status
(not the exhausted-retries error); under an always-429 injector it
issues exactly `MAX_RETRIES` attempts, sleeps `2^attempt` after every
attempt — the last included — and fails with the exhausted-retries
error. -/
theorem retry_backoff_trace (inj5 inj4 : Nat → InjectedResponse) (code : Nat)
    (body body4 : String) (hcode : 500 ≤ code)
    (h5 : ∀ n, inj5 n = .http code body)
    (h4 : ∀ n, inj4 n = .http 429 body4) :
    make_request inj5 =
      ⟨MAX_RETRIES, [2 ^ 0, 2 ^ 1], .httpStatusError code body⟩ ∧
    make_request inj4 =
      ⟨MAX_RETRIES, [2 ^ 0, 2 ^ 1, 2 ^ 2], .exhausted⟩ := by
  constructor
  · calc make_request inj5 = makeRequestAux inj5 (2 + 1) 0 [] := rfl
      _ = makeRequestAux inj5 (1 + 1) 1 [2 ^ 0] :=
          makeRequestAux_step_5xx inj5 2 0 [] code body hcode (h5 0) (by decide)
      _ = makeRequestAux inj5 (0 + 1) 2 [2 ^ 1, 2 ^ 0] :=
          makeRequestAux_step_5xx inj5 1 1 [2 ^ 0] code body hcode (h5 1) (by decide)
      _ = ⟨2 + 1, [2 ^ 1, 2 ^ 0].reverse, .httpStatusError code body⟩ :=
          makeRequestAux_last_5xx inj5 0 2 [2 ^ 1, 2 ^ 0] code body hcode (h5 2)
            (by decide)
      _ = ⟨MAX_RETRIES, [2 ^ 0, 2 ^ 1], .httpStatusError code body⟩ := rfl
  · calc make_request inj4 = makeRequestAux inj4 (2 + 1) 0 [] := rfl
      _ = makeRequestAux inj4 (1 + 1) 1 [2 ^ 0] :=
          makeRequestAux_step_429 inj4 2 0 [] body4 (h4 0)
      _ = makeRequestAux inj4 (0 + 1) 2 [2 ^ 1, 2 ^ 0] :=
          makeRequestAux_step_429 inj4 1 1 [2 ^ 0] body4 (h4 1)
      _ = makeRequestAux inj4 0 3 [2 ^ 2, 2 ^ 1, 2 ^ 0] :=
          makeRequestAux_step_429 inj4 0 2 [2 ^ 1, 2 ^ 0] body4 (h4 2)
      _ = ⟨MAX_RETRIES, [2 ^ 0, 2 ^ 1, 2 ^ 2], .exhausted⟩ := rfl

/-- Witness for the amended C2 theorem at the concrete injectors. -/
theorem retry_backoff_trace_witness :
    make_request inj503 =
      ⟨MAX_RETRIES, [2 ^ 0, 2 ^ 1], .httpStatusError 503 "Service Unavailable"⟩ ∧
    make_request inj429 =
      ⟨MAX_RETRIES, [2 ^ 0, 2 ^ 1, 2 ^ 2], .exhausted⟩ :=
  retry_backoff_trace inj503 inj429 503 "Service Unavailable" "Too Many Requests"
    (by decide) (fun n => rfl) (fun n => rfl)

end EuropePMC
